import Mathlib

/-!
CarND-MPC-Project: the telemetry pipeline of `src/main.cpp`.

A shallow embedding of the pure parts of `src/main.cpp` and `src/MPC.h`:

* `hasData`             (main.cpp 19-29)  over `String`, `size_t` arithmetic modulo `2^64`;
* `polyeval`            (main.cpp 32-38);
* `polyfit`             (main.cpp 43-62), the Eigen Householder-QR solve taken as a parameter;
* `mapToCarCoordinates` (main.cpp 64-76);
* the arithmetic of the telemetry handler (main.cpp 114-121, 137-162).

`double` is embedded as an arbitrary field `α`; the libm functions `cos`, `sin`, `atan` and the
constant `M_PI` are parameters of the definitions, so every definition is executable (for
instance over `ℚ`).  The theorems instantiate them with `ℝ`, `Real.cos`, `Real.sin`,
`Real.arctan` and `Real.pi`.
-/

namespace MPC

/-! ## `std::string` helpers used by `hasData` -/

/-- The value `std::string::npos`, the largest `size_t`. -/
def npos : Nat := 2 ^ 64 - 1

/-- Scan of `s.find(sub)`: `i` is the index of the head of the remaining input; the result is
the first index at which `sub` occurs, or `npos`. -/
def findAux (sub : List Char) : List Char → Nat → Nat
  | [], i => if sub.isEmpty then i else npos
  | c :: cs, i => if sub.isPrefixOf (c :: cs) then i else findAux sub cs (i + 1)

/-- Model of `std::string::find(const char*)` from position 0. -/
def find (s sub : List Char) : Nat := findAux sub s 0

/-- Scan of `s.find_first_of(set)`: the first index holding a character of `set`, or `npos`. -/
def findFirstOfAux (set : List Char) : List Char → Nat → Nat
  | [], _ => npos
  | c :: cs, i => if set.contains c then i else findFirstOfAux set cs (i + 1)

/-- Model of `std::string::find_first_of(const char*)` from position 0. -/
def find_first_of (s set : List Char) : Nat := findFirstOfAux set s 0

/-- Scan of `s.rfind(sub)`: `last` is the latest index seen so far at which `sub` occurs. -/
def rfindAux (sub : List Char) : List Char → Nat → Nat → Nat
  | [], i, last => if sub.isEmpty then i else last
  | c :: cs, i, last =>
      rfindAux sub cs (i + 1) (if sub.isPrefixOf (c :: cs) then i else last)

/-- Model of `std::string::rfind(const char*)`: the last index at which `sub` occurs, or
`npos`. -/
def rfind (s sub : List Char) : Nat := rfindAux sub s 0 npos

/-- Model of `std::string::substr(pos, count)`: `none` stands for `std::out_of_range`, thrown
when `pos > size()`; otherwise the characters `[pos, min(pos + count, size()))`. -/
def substr (s : List Char) (pos count : Nat) : Option (List Char) :=
  if pos > s.length then none else some ((s.drop pos).take (min count (s.length - pos)))

/-- Embedding of `hasData` (main.cpp 19-29).  `b2 - b1 + 2` is `size_t` arithmetic, so it is
taken modulo `2^64`. -/
def hasData (s : String) : Option String :=
  let found_null := find s.data "null".data
  let b1 := find_first_of s.data "[".data
  let b2 := rfind s.data "\x7d]".data
  if found_null ≠ npos then
    some ""
  else if b1 ≠ npos ∧ b2 ≠ npos then
    (substr s.data b1 ((b2 + 2 ^ 64 - b1 + 2) % 2 ^ 64)).map String.mk
  else
    some ""

/-! ## Polynomial evaluation and fitting -/

section Numeric

variable {α : Type} [Field α]

/-- The loop of `polyeval` (main.cpp 34-36): `i` is the loop counter, `result` the accumulator,
the list holds the coefficients `coeffs[i], coeffs[i+1], ...` still to be visited. -/
def polyevalLoop (x : α) : List α → Nat → α → α
  | [], _, result => result
  | c :: cs, i, result => polyevalLoop x cs (i + 1) (result + c * x ^ i)

/-- Embedding of `polyeval` (main.cpp 32-38). -/
def polyeval (coeffs : List α) (x : α) : α :=
  polyevalLoop x coeffs 0 0

/-- Entry `A(j, i)` of the design matrix of `polyfit` for the row of abscissa `x`
(main.cpp 49-57): `A(j, 0) = 1` and `A(j, i + 1) = A(j, i) * xvals(j)`. -/
def designEntry (x : α) : Nat → α
  | 0 => 1
  | i + 1 => designEntry x i * x

/-- The matrix `A` built by `polyfit` (main.cpp 47-57), as the list of its rows: one row per
abscissa, `order + 1` columns. -/
def designMatrix (xvals : List α) (order : Nat) : List (List α) :=
  xvals.map fun x => (List.range (order + 1)).map (designEntry x)

/-- Embedding of `polyfit` (main.cpp 43-62).  The two `assert`s are the precondition check: a
failed assertion aborts the call and is modelled by `none`.  `qrSolve A y` stands for
`A.householderQr().solve(y)` of the Eigen library. -/
def polyfit (qrSolve : List (List α) → List α → List α) (xvals yvals : List α) (order : Int) :
    Option (List α) :=
  if xvals.length ≠ yvals.length then none
  else if ¬ (order ≥ 1 ∧ order ≤ (xvals.length : Int) - 1) then none
  else some (qrSolve (designMatrix xvals order.toNat) yvals)

/-- Product of a matrix (list of rows) with a vector. -/
def mulVec (A : List (List α)) (c : List α) : List α :=
  A.map fun row => (List.zipWith (fun a b => a * b) row c).sum

/-- Squared Euclidean norm of the residual `A c - y`. -/
def residual (A : List (List α)) (y c : List α) : α :=
  (List.zipWith (fun a b => (a - b) ^ 2) (mulVec A c) y).sum

/-- Contract of the Eigen call `A.householderQr().solve(y)` as the spec reads it: the result `c`
has one entry per column of `A` and minimises the squared residual among such vectors. -/
def IsLeastSquares [LE α] (cols : Nat) (A : List (List α)) (y c : List α) : Prop :=
  c.length = cols ∧ ∀ c' : List α, c'.length = cols → residual A y c ≤ residual A y c'

/-! ## Coordinate transform -/

/-- Embedding of `mapToCarCoordinates` (main.cpp 64-76) on a `2 x n` matrix of waypoints. -/
def mapToCarCoordinates (cos sin : α → α) {n : Nat} (pts : Matrix (Fin 2) (Fin n) α)
    (px py psi : α) : Matrix (Fin 2) (Fin n) α :=
  let c_psi := cos psi
  let s_psi := sin psi
  let t_x : Fin n → α := fun _ => -px * c_psi - py * s_psi
  let t_y : Fin n → α := fun _ => px * s_psi - py * c_psi
  Matrix.of ![fun j => pts 0 j * c_psi + pts 1 j * s_psi + t_x j,
              fun j => -pts 0 j * s_psi + pts 1 j * c_psi + t_y j]

/-- Inverse transform in the words of the specification (it is not part of the source):
rotate each column by `+psi`, then translate by `(px, py)`. -/
def inverseTransform (cos sin : α → α) {n : Nat} (pts : Matrix (Fin 2) (Fin n) α)
    (px py psi : α) : Matrix (Fin 2) (Fin n) α :=
  Matrix.of ![fun j => cos psi * pts 0 j - sin psi * pts 1 j + px,
              fun j => sin psi * pts 0 j + cos psi * pts 1 j + py]

/-! ## Constants of `MPC.h` -/

/-- Constant `Lf` (MPC.h 19). -/
def Lf : α := 2.67

/-- Embedding of `deg2rad` (MPC.h 23); `pi` stands for `M_PI`. -/
def deg2rad (pi x : α) : α := x * pi / 180

/-- Constant `MAX_ANGLE` (MPC.h 27). -/
def MAX_ANGLE : α := 30

/-! ## The telemetry handler (main.cpp 91-208), arithmetic only -/

/-- Vehicle state `(px, py, psi, v)` held by the handler. -/
structure VehicleState (α : Type) where
  px : α
  py : α
  psi : α
  v : α

/-- Constant `latency` of the handler (main.cpp 117). -/
def latency : α := 0.1

/-- Latency correction of the handler (main.cpp 118-121) with the latency duration as a
parameter.  The four compound assignments run in sequence, each reading the variables as the
previous ones left them. -/
def latencyCorrection (cos sin : α → α) (pi : α) (px py psi v steering_angle throttle : α)
    (latency : α) : VehicleState α :=
  let v := v + throttle * latency
  let psi := psi - v * steering_angle * deg2rad pi MAX_ANGLE / Lf * latency
  let px := px + v * cos psi * latency
  let py := py + v * sin psi * latency
  { px := px, py := py, psi := psi, v := v }

/-- The six entries `px_c, py_c, psi_c, v, cte, epsi` of the vector `state` handed to
`mpc.Solve` (main.cpp 154-155). -/
structure KinematicState (α : Type) where
  x : α
  y : α
  psi : α
  v : α
  cte : α
  epsi : α

/-- Construction of the optimizer's initial state (main.cpp 137-155).  `coeffs` is the
`Eigen::Vector4d` of fitted coefficients, passed to `polyeval` as a dynamic vector. -/
def initialState (atan : α → α) (coeffs : Fin 4 → α) (v : α) : KinematicState α :=
  let px_c : α := 0
  let py_c : α := 0
  let psi_c : α := 0
  let fx := polyeval (List.ofFn coeffs) px_c
  let cte := fx - py_c
  let epsi := psi_c - atan (coeffs 1)
  { x := px_c, y := py_c, psi := psi_c, v := v, cte := cte, epsi := epsi }

/-- Record `SolveResult` (MPC.h 29-34). -/
structure SolveResult (α : Type) where
  delta : α
  a : α
  x : List α
  y : List α

/-- The pair `steer_value, throttle_value` the handler emits (main.cpp 161-167). -/
structure ActuationCommand (α : Type) where
  steer_value : α
  throttle_value : α

/-- Scaling of the optimizer result into the reply (main.cpp 161-162). -/
def actuation (pi : α) (sr : SolveResult α) : ActuationCommand α :=
  let steer_value := sr.delta / deg2rad pi MAX_ANGLE
  let throttle_value := sr.a
  { steer_value := steer_value, throttle_value := throttle_value }

end Numeric

/-! ## Theorems -/

/-- C1: over the reals, rotating every column of `mapToCarCoordinates pts px py psi` by `+psi`
and then translating it by `(px, py)` gives back `pts`. -/
theorem mapToCarCoordinates_roundtrip {n : Nat} (pts : Matrix (Fin 2) (Fin n) ℝ)
    (px py psi : ℝ) :
    inverseTransform Real.cos Real.sin
      (mapToCarCoordinates Real.cos Real.sin pts px py psi) px py psi = pts := by
  have h := Real.cos_sq_add_sin_sq psi
  ext i j
  fin_cases i
  · simp [inverseTransform, mapToCarCoordinates]
    linear_combination (pts 0 j - px) * h
  · simp [inverseTransform, mapToCarCoordinates]
    linear_combination (pts 1 j - py) * h

/-- C7: over the reals, column `j` of `mapToCarCoordinates` is the waypoint translated by
`(-px, -py)` and rotated by `-psi`; the vehicle position maps to `(0, 0)` and the point at
distance `d` ahead along the heading maps to `(d, 0)`. -/
theorem mapToCarCoordinates_rigid {n : Nat} (pts : Matrix (Fin 2) (Fin n) ℝ)
    (px py psi d : ℝ) (j : Fin n) :
    mapToCarCoordinates Real.cos Real.sin pts px py psi 0 j
        = Real.cos psi * (pts 0 j - px) + Real.sin psi * (pts 1 j - py) ∧
    mapToCarCoordinates Real.cos Real.sin pts px py psi 1 j
        = -Real.sin psi * (pts 0 j - px) + Real.cos psi * (pts 1 j - py) ∧
    mapToCarCoordinates Real.cos Real.sin !![px; py] px py psi = !![0; 0] ∧
    mapToCarCoordinates Real.cos Real.sin
        !![px + d * Real.cos psi; py + d * Real.sin psi] px py psi = !![d; 0] := by
  have h := Real.cos_sq_add_sin_sq psi
  refine ⟨?_, ?_, ?_, ?_⟩
  · simp [mapToCarCoordinates]; ring
  · simp [mapToCarCoordinates]; ring
  · ext i k
    fin_cases i <;> simp [mapToCarCoordinates]
  · ext i k
    fin_cases i
    · simp [mapToCarCoordinates]
      linear_combination d * h
    · simp [mapToCarCoordinates]
      ring

/-- C6: with latency duration `0` the latency correction returns the measured state
`(px, py, psi, v)` unchanged, whatever the feedback actuation. -/
theorem latencyCorrection_zero (px py psi v steering_angle throttle : ℝ) :
    latencyCorrection Real.cos Real.sin Real.pi px py psi v steering_angle throttle 0
      = { px := px, py := py, psi := psi, v := v } := by
  simp [latencyCorrection]

/-- C5, as stated, fails: at rest (`v = 0`) with throttle feedback `1`, no steering and the
handler's latency `0.1`, the code moves `px` to `0.01`, while the claimed formulas, reading the
measured speed `0`, leave it at `0`. -/
theorem latencyCorrection_measured_speed_counterexample :
    ¬ ((latencyCorrection Real.cos Real.sin Real.pi 0 0 0 0 0 1 (latency : ℝ)).v
          = 0 + 1 * latency ∧
       (latencyCorrection Real.cos Real.sin Real.pi 0 0 0 0 0 1 (latency : ℝ)).psi
          = 0 - 0 * 0 * deg2rad Real.pi MAX_ANGLE / Lf * latency ∧
       (latencyCorrection Real.cos Real.sin Real.pi 0 0 0 0 0 1 (latency : ℝ)).px
          = 0 + 0 * Real.cos
              (latencyCorrection Real.cos Real.sin Real.pi 0 0 0 0 0 1 (latency : ℝ)).psi
              * latency ∧
       (latencyCorrection Real.cos Real.sin Real.pi 0 0 0 0 0 1 (latency : ℝ)).py
          = 0 + 0 * Real.sin
              (latencyCorrection Real.cos Real.sin Real.pi 0 0 0 0 0 1 (latency : ℝ)).psi
              * latency) := by
  rintro ⟨-, -, hpx, -⟩
  norm_num [latencyCorrection, latency] at hpx

/-- C5, amended: the projected speed is `v + throttle * L`, and the projected heading and
position are computed from the projected speed `v + throttle * L` (not the measured one), with
`max_angle_rad = 30 * pi / 180` and `Lf = 2.67`; the position uses the projected heading. -/
theorem latencyCorrection_projected_speed (px py psi v steering_angle throttle L : ℝ) :
    (latencyCorrection Real.cos Real.sin Real.pi px py psi v steering_angle throttle L).v
        = v + throttle * L ∧
    (latencyCorrection Real.cos Real.sin Real.pi px py psi v steering_angle throttle L).psi
        = psi - (v + throttle * L) * steering_angle * (30 * Real.pi / 180) / 2.67 * L ∧
    (latencyCorrection Real.cos Real.sin Real.pi px py psi v steering_angle throttle L).px
        = px + (v + throttle * L) * Real.cos
            (latencyCorrection Real.cos Real.sin Real.pi px py psi v steering_angle throttle
              L).psi * L ∧
    (latencyCorrection Real.cos Real.sin Real.pi px py psi v steering_angle throttle L).py
        = py + (v + throttle * L) * Real.sin
            (latencyCorrection Real.cos Real.sin Real.pi px py psi v steering_angle throttle
              L).psi * L := by
  simp [latencyCorrection, deg2rad, MAX_ANGLE, Lf]

/-- C8: for fitted coefficients `[c0, c1, c2, c3]` the state handed to the optimizer has pose
`(0, 0, 0)`, the speed `v`, `cte = polyeval coeffs 0 - 0 = c0` and `epsi = -atan c1`. -/
theorem initialState_errors (c0 c1 c2 c3 v : ℝ) :
    initialState Real.arctan ![c0, c1, c2, c3] v
        = { x := 0, y := 0, psi := 0, v := v, cte := c0, epsi := -Real.arctan c1 } ∧
    (initialState Real.arctan ![c0, c1, c2, c3] v).cte = polyeval [c0, c1, c2, c3] 0 - 0 ∧
    polyeval [c0, c1, c2, c3] (0 : ℝ) = c0 := by
  simp [initialState, polyeval, polyevalLoop]

/-- C3: when the optimizer's `delta` lies within `±deg2rad MAX_ANGLE` and its `a` within
`[-1, 1]`, the emitted steering value is `delta / deg2rad MAX_ANGLE` and lies in `[-1, 1]`, and
the emitted throttle is `a` itself and lies in `[-1, 1]`. -/
theorem actuation_in_range (sr : SolveResult ℝ)
    (hdelta : -deg2rad Real.pi MAX_ANGLE ≤ sr.delta ∧ sr.delta ≤ deg2rad Real.pi MAX_ANGLE)
    (ha : -1 ≤ sr.a ∧ sr.a ≤ 1) :
    (actuation Real.pi sr).steer_value = sr.delta / deg2rad Real.pi MAX_ANGLE ∧
    -1 ≤ (actuation Real.pi sr).steer_value ∧ (actuation Real.pi sr).steer_value ≤ 1 ∧
    (actuation Real.pi sr).throttle_value = sr.a ∧
    -1 ≤ (actuation Real.pi sr).throttle_value ∧ (actuation Real.pi sr).throttle_value ≤ 1 := by
  have hpos : (0 : ℝ) < deg2rad Real.pi MAX_ANGLE := by
    have := Real.pi_pos
    simp only [deg2rad, MAX_ANGLE]
    positivity
  refine ⟨rfl, ?_, ?_, rfl, ha.1, ha.2⟩
  · show -1 ≤ sr.delta / deg2rad Real.pi MAX_ANGLE
    rw [le_div_iff₀ hpos]
    linarith [hdelta.1]
  · show sr.delta / deg2rad Real.pi MAX_ANGLE ≤ 1
    rw [div_le_one hpos]
    exact hdelta.2

/-- Witness of `actuation_in_range`: half the maximal steering angle and half throttle. -/
theorem actuation_in_range_witness :
    (actuation Real.pi (⟨deg2rad Real.pi MAX_ANGLE / 2, 1 / 2, [], []⟩ : SolveResult ℝ)).steer_value
        = deg2rad Real.pi MAX_ANGLE / 2 / deg2rad Real.pi MAX_ANGLE ∧
    -1 ≤ (actuation Real.pi (⟨deg2rad Real.pi MAX_ANGLE / 2, 1 / 2, [], []⟩ :
        SolveResult ℝ)).steer_value ∧
    (actuation Real.pi (⟨deg2rad Real.pi MAX_ANGLE / 2, 1 / 2, [], []⟩ :
        SolveResult ℝ)).steer_value ≤ 1 ∧
    (actuation Real.pi (⟨deg2rad Real.pi MAX_ANGLE / 2, 1 / 2, [], []⟩ :
        SolveResult ℝ)).throttle_value = 1 / 2 ∧
    -1 ≤ (actuation Real.pi (⟨deg2rad Real.pi MAX_ANGLE / 2, 1 / 2, [], []⟩ :
        SolveResult ℝ)).throttle_value ∧
    (actuation Real.pi (⟨deg2rad Real.pi MAX_ANGLE / 2, 1 / 2, [], []⟩ :
        SolveResult ℝ)).throttle_value ≤ 1 :=
  actuation_in_range ⟨deg2rad Real.pi MAX_ANGLE / 2, 1 / 2, [], []⟩
    (by
      have hpos : (0 : ℝ) < deg2rad Real.pi MAX_ANGLE := by
        have := Real.pi_pos
        simp only [deg2rad, MAX_ANGLE]
        positivity
      constructor <;> simp only <;> linarith)
    (by constructor <;> norm_num)

/-- C4: `polyfit` is rejected by its precondition check, whatever the solver, as soon as the
number of points is below `order + 1`. -/
theorem polyfit_insufficient_points {α : Type} [Field α]
    (qrSolve : List (List α) → List α → List α) (xvals yvals : List α) (order : Int)
    (h : (xvals.length : Int) < order + 1) :
    polyfit qrSolve xvals yvals order = none := by
  have h2 : ¬ (order ≥ 1 ∧ order ≤ (xvals.length : Int) - 1) := by
    rintro ⟨-, h2⟩
    omega
  unfold polyfit
  rw [if_pos h2]
  split_ifs <;> rfl

/-- Witness of `polyfit_insufficient_points`: three points at degree three. -/
theorem polyfit_insufficient_points_witness :
    (([1, 2, 3] : List ℚ).length : Int) < 3 + 1 ∧
    polyfit (fun _ y => y) ([1, 2, 3] : List ℚ) [4, 5, 6] 3 = none :=
  ⟨by decide, polyfit_insufficient_points (fun _ y => y) [1, 2, 3] [4, 5, 6] 3 (by decide)⟩

/-- C9, as stated, fails: four waypoints sharing the abscissa `1` pass both assertions of
`polyfit`, which returns what the solver produced. -/
theorem polyfit_zero_spread_counterexample :
    (∀ a ∈ ([1, 1, 1, 1] : List ℚ), ∀ b ∈ ([1, 1, 1, 1] : List ℚ), a = b) ∧
    polyfit (fun _ _ => [2, 0, 0, 0]) ([1, 1, 1, 1] : List ℚ) [2, 2, 2, 2] 3
      = some [2, 0, 0, 0] := by
  refine ⟨by decide, by decide⟩

/-- C9, amended: `polyfit` does not look at the spread of the abscissae.  When they are all
equal, the two vectors have the same length and `1 ≤ order ≤ length - 1`, the call is accepted:
the design matrix has all its rows equal and `polyfit` returns the solver's answer for it. -/
theorem polyfit_zero_spread_accepted {α : Type} [Field α]
    (qrSolve : List (List α) → List α → List α) (xvals yvals : List α) (order : Int)
    (hspread : ∀ a ∈ xvals, ∀ b ∈ xvals, a = b)
    (hlen : xvals.length = yvals.length)
    (hlo : 1 ≤ order) (hhi : order ≤ (xvals.length : Int) - 1) :
    (∀ r ∈ designMatrix xvals order.toNat, ∀ r' ∈ designMatrix xvals order.toNat, r = r') ∧
    polyfit qrSolve xvals yvals order
      = some (qrSolve (designMatrix xvals order.toNat) yvals) := by
  constructor
  · intro r hr r' hr'
    simp only [designMatrix, List.mem_map] at hr hr'
    obtain ⟨a, ha, rfl⟩ := hr
    obtain ⟨b, hb, rfl⟩ := hr'
    rw [hspread a ha b hb]
  · unfold polyfit
    rw [if_neg (by simpa using hlen), if_neg (by push_neg; exact ⟨hlo, hhi⟩)]

/-- Witness of `polyfit_zero_spread_accepted`: four waypoints on the vertical line `x = 1`. -/
theorem polyfit_zero_spread_accepted_witness :
    (∀ r ∈ designMatrix ([1, 1, 1, 1] : List ℚ) (3 : Int).toNat,
      ∀ r' ∈ designMatrix ([1, 1, 1, 1] : List ℚ) (3 : Int).toNat, r = r') ∧
    polyfit (fun _ _ => [2, 0, 0, 0]) ([1, 1, 1, 1] : List ℚ) [2, 2, 2, 2] 3
      = some ((fun _ _ => [2, 0, 0, 0]) (designMatrix ([1, 1, 1, 1] : List ℚ) (3 : Int).toNat)
          [2, 2, 2, 2]) :=
  polyfit_zero_spread_accepted (fun _ _ => [2, 0, 0, 0]) [1, 1, 1, 1] [2, 2, 2, 2] 3
    (by decide) (by decide) (by decide) (by decide)

/-- A successful `find_first_of` scan started at index `i` answers an index inside the input. -/
theorem findFirstOfAux_lt (set : List Char) (s : List Char) (i : Nat)
    (h : findFirstOfAux set s i ≠ npos) : findFirstOfAux set s i < i + s.length := by
  induction s generalizing i with
  | nil => exact absurd rfl h
  | cons c cs ih =>
    unfold findFirstOfAux at h ⊢
    split_ifs with hc
    · simp
    · rw [if_neg hc] at h
      have := ih (i + 1) h
      simp only [List.length_cons]
      omega

/-- The call of `substr` in `hasData` never throws: its position is the index of a `[`. -/
theorem hasData_isSome (s : String) : (hasData s).isSome = true := by
  unfold hasData
  simp only
  split_ifs with h1 h2
  · rfl
  · have hlt := findFirstOfAux_lt "[".data s.data 0 h2.1
    simp only [Nat.zero_add] at hlt
    have hle : ¬ find_first_of s.data "[".data > s.data.length :=
      Nat.not_lt.mpr (Nat.le_of_lt hlt)
    simp only [substr]
    rw [if_neg hle]
    rfl
  · rfl

/-- A string in which `find` locates `null` is answered by the empty string. -/
theorem hasData_of_null (s : String) (h : find s.data "null".data ≠ npos) :
    hasData s = some "" := by
  unfold hasData
  simp only
  rw [if_pos h]

/-- C10, failing input: on `42}]x[` the last `}]` (index 2) precedes the first `[` (index 5),
`b2 - b1 + 2` wraps to `2^64 - 1`, and `hasData` returns `[`, which is not empty and does not
end with `}]`. -/
theorem hasData_bracket_after_close :
    hasData "42\x7d]x[" = some "[" ∧
    find "42\x7d]x[".data "null".data = npos ∧
    find_first_of "42\x7d]x[".data "[".data = 5 ∧
    rfind "42\x7d]x[".data "\x7d]".data = 2 ∧
    (2 + 2 ^ 64 - 5 + 2) % 2 ^ 64 = 2 ^ 64 - 1 ∧
    "\x7d]".data.isSuffixOf "[".data = false := by
  refine ⟨by decide, by decide, by decide, by decide, by decide, by decide⟩

/-- The squared residual is a sum of squares, hence nonnegative over the reals. -/
theorem residual_nonneg (A : List (List ℝ)) (y c : List ℝ) : 0 ≤ residual A y c := by
  unfold residual
  apply List.sum_nonneg
  intro t ht
  obtain ⟨i, hi, rfl⟩ := List.getElem_of_mem ht
  rw [List.getElem_zipWith]
  exact sq_nonneg _

/-- Four points with pairwise distinct abscissae lie on a cubic: the Lagrange interpolant. -/
theorem exists_cubic_through (x0 x1 x2 x3 y0 y1 y2 y3 : ℝ) (hd : [x0, x1, x2, x3].Nodup) :
    ∃ a0 a1 a2 a3 : ℝ,
      a0 + a1 * x0 + a2 * x0 ^ 2 + a3 * x0 ^ 3 = y0 ∧
      a0 + a1 * x1 + a2 * x1 ^ 2 + a3 * x1 ^ 3 = y1 ∧
      a0 + a1 * x2 + a2 * x2 ^ 2 + a3 * x2 ^ 3 = y2 ∧
      a0 + a1 * x3 + a2 * x3 ^ 2 + a3 * x3 ^ 3 = y3 := by
  classical
  set v : Fin 4 → ℝ := ![x0, x1, x2, x3] with hv
  set r : Fin 4 → ℝ := ![y0, y1, y2, y3] with hr
  have hinj : Set.InjOn v (Finset.univ : Finset (Fin 4)) := by
    simp only [List.nodup_cons, List.mem_cons, List.mem_singleton, not_or, List.not_mem_nil,
      not_false_eq_true, List.nodup_nil, and_true] at hd
    obtain ⟨⟨h01, h02, h03⟩, ⟨h12, h13⟩, h23⟩ := hd
    intro i _ j _ hij
    fin_cases i <;> fin_cases j <;> simp_all [v]
  set p := Lagrange.interpolate (Finset.univ : Finset (Fin 4)) v r with hp
  have hdeg : p.natDegree < 4 := by
    have h := Lagrange.degree_interpolate_le (r := r) hinj
    have h' : p.natDegree ≤ 3 := Polynomial.natDegree_le_of_degree_le (by simpa using h)
    omega
  have heval : ∀ x : ℝ, p.eval x
      = p.coeff 0 + p.coeff 1 * x + p.coeff 2 * x ^ 2 + p.coeff 3 * x ^ 3 := by
    intro x
    rw [Polynomial.eval_eq_sum_range' hdeg]
    simp [Finset.sum_range_succ]
  have hnode : ∀ i : Fin 4, p.eval (v i) = r i := fun i =>
    Lagrange.eval_interpolate_at_node r hinj (Finset.mem_univ i)
  refine ⟨p.coeff 0, p.coeff 1, p.coeff 2, p.coeff 3, ?_, ?_, ?_, ?_⟩
  · rw [← heval]; exact hnode 0
  · rw [← heval]; exact hnode 1
  · rw [← heval]; exact hnode 2
  · rw [← heval]; exact hnode 3

/-- C2: for four waypoints with pairwise distinct abscissae, when the QR solve returns a
least-squares solution of the Vandermonde system built by `polyfit`, the call `polyfit xs ys 3`
returns coefficients `c` with `polyeval c x = y` at every waypoint `(x, y)`. -/
theorem polyfit_exact_interpolation (qrSolve : List (List ℝ) → List ℝ → List ℝ)
    (xs ys : List ℝ) (hx : xs.length = 4) (hy : ys.length = 4) (hd : xs.Nodup)
    (hqr : IsLeastSquares 4 (designMatrix xs 3) ys (qrSolve (designMatrix xs 3) ys)) :
    ∃ c, polyfit qrSolve xs ys 3 = some c ∧ List.Forall₂ (fun x y => polyeval c x = y) xs ys := by
  obtain ⟨x0, x1, x2, x3, rfl⟩ : ∃ a b c d, xs = [a, b, c, d] := by
    match xs, hx with
    | [a, b, c, d], _ => exact ⟨a, b, c, d, rfl⟩
  obtain ⟨y0, y1, y2, y3, rfl⟩ : ∃ a b c d, ys = [a, b, c, d] := by
    match ys, hy with
    | [a, b, c, d], _ => exact ⟨a, b, c, d, rfl⟩
  refine ⟨qrSolve (designMatrix [x0, x1, x2, x3] 3) [y0, y1, y2, y3], ?_, ?_⟩
  · simp [polyfit]
  obtain ⟨hlen, hmin⟩ := hqr
  generalize qrSolve (designMatrix [x0, x1, x2, x3] 3) [y0, y1, y2, y3] = c at hlen hmin
  obtain ⟨c0, c1, c2, c3, rfl⟩ : ∃ a b c' d, c = [a, b, c', d] := by
    match c, hlen with
    | [a, b, c', d], _ => exact ⟨a, b, c', d, rfl⟩
  obtain ⟨a0, a1, a2, a3, e0, e1, e2, e3⟩ := exists_cubic_through x0 x1 x2 x3 y0 y1 y2 y3 hd
  have hle := hmin [a0, a1, a2, a3] rfl
  have hzero : residual (designMatrix [x0, x1, x2, x3] 3) [y0, y1, y2, y3] [a0, a1, a2, a3]
      = 0 := by
    simp only [residual, mulVec, designMatrix, designEntry, List.range_succ, List.range_zero,
      List.map_cons, List.map_nil, List.nil_append, List.cons_append, List.zipWith_cons_cons,
      List.zipWith_nil_right, List.sum_cons, List.sum_nil]
    rw [← e0, ← e1, ← e2, ← e3]
    ring
  rw [hzero] at hle
  simp only [residual, mulVec, designMatrix, designEntry, List.range_succ, List.range_zero,
    List.map_cons, List.map_nil, List.nil_append, List.cons_append, List.zipWith_cons_cons,
    List.zipWith_nil_right, List.sum_cons, List.sum_nil] at hle
  have q0 := sq_nonneg (1 * c0 + (1 * x0 * c1 + (1 * x0 * x0 * c2 + (1 * x0 * x0 * x0 * c3 + 0))) - y0)
  have q1 := sq_nonneg (1 * c0 + (1 * x1 * c1 + (1 * x1 * x1 * c2 + (1 * x1 * x1 * x1 * c3 + 0))) - y1)
  have q2 := sq_nonneg (1 * c0 + (1 * x2 * c1 + (1 * x2 * x2 * c2 + (1 * x2 * x2 * x2 * c3 + 0))) - y2)
  have q3 := sq_nonneg (1 * c0 + (1 * x3 * c1 + (1 * x3 * x3 * c2 + (1 * x3 * x3 * x3 * c3 + 0))) - y3)
  have z0 : 1 * c0 + (1 * x0 * c1 + (1 * x0 * x0 * c2 + (1 * x0 * x0 * x0 * c3 + 0))) - y0 = 0 :=
    pow_eq_zero_iff (two_ne_zero) |>.mp (by linarith)
  have z1 : 1 * c0 + (1 * x1 * c1 + (1 * x1 * x1 * c2 + (1 * x1 * x1 * x1 * c3 + 0))) - y1 = 0 :=
    pow_eq_zero_iff (two_ne_zero) |>.mp (by linarith)
  have z2 : 1 * c0 + (1 * x2 * c1 + (1 * x2 * x2 * c2 + (1 * x2 * x2 * x2 * c3 + 0))) - y2 = 0 :=
    pow_eq_zero_iff (two_ne_zero) |>.mp (by linarith)
  have z3 : 1 * c0 + (1 * x3 * c1 + (1 * x3 * x3 * c2 + (1 * x3 * x3 * x3 * c3 + 0))) - y3 = 0 :=
    pow_eq_zero_iff (two_ne_zero) |>.mp (by linarith)
  simp only [List.forall₂_cons, List.Forall₂.nil, and_true, polyeval, polyevalLoop]
  refine ⟨?_, ?_, ?_, ?_⟩
  · linear_combination z0
  · linear_combination z1
  · linear_combination z2
  · linear_combination z3

/-- Witness of `polyfit_exact_interpolation`: the waypoints `(0,1), (1,2), (2,3), (3,4)` and a
solver answering `[1, 1, 0, 0]`, the line `y = 1 + x` through them. -/
theorem polyfit_exact_interpolation_witness :
    ∃ c, polyfit (fun _ _ => [1, 1, 0, 0]) ([0, 1, 2, 3] : List ℝ) [1, 2, 3, 4] 3 = some c ∧
      List.Forall₂ (fun x y => polyeval c x = y) ([0, 1, 2, 3] : List ℝ) [1, 2, 3, 4] :=
  polyfit_exact_interpolation (fun _ _ => [1, 1, 0, 0]) [0, 1, 2, 3] [1, 2, 3, 4] rfl rfl
    (by norm_num)
    ⟨rfl, fun c' _ => by
      have h0 : residual (designMatrix ([0, 1, 2, 3] : List ℝ) 3) [1, 2, 3, 4] [1, 1, 0, 0]
          = 0 := by
        norm_num [residual, mulVec, designMatrix, designEntry, List.range_succ]
      rw [h0]
      exact residual_nonneg _ _ _⟩

end MPC
